import Mathlib

/-!
Verification development for the Tenacity audio engine sources.

The repository sources under verification are the audio-engine headers
(src/AudioIO.h, lib-audio-devices/AudioIOBase.h), the device catalog
(lib-audio-devices/DeviceManager.cpp / .h) and the device preferences
panel (src/prefs/DevicePrefs.cpp).  The implementations of the ring
buffer, the playback schedule, GetBestRate, StartStream and the audio
callback are declared in the headers but their .cpp translation units
are not part of the source tree here; those components are modelled
from the specification text, as marked on each definition.
-/

namespace TenacityAudio

/-! ## Ring Buffer

Modelled from the spec (section 4.1 and section 3, "Ring Buffer"): the
RingBuffer implementation file is not under the source tree, only its
forward declaration in src/AudioIO.h and the members
`mCaptureBuffers` / `mPlaybackBuffers` that hold one ring buffer per
channel.  Per the spec the buffer owns a fixed-capacity sample store, a
write cursor owned by the producer, a read cursor owned by the
consumer, and derived available / free counts computed from the cursor
difference; storage indices are the cursors reduced modulo the
capacity.
-/

structure RingBuffer (α : Type) where
  capacity : Nat
  readPos : Nat
  writePos : Nat
  store : Nat → α

namespace RingBuffer

/-- Modelled from the spec: a freshly constructed, empty ring buffer of
the given capacity.  `d` is the arbitrary initial content of the
backing store (never observable through `Get`). -/
def empty (α : Type) (cap : Nat) (d : α) : RingBuffer α :=
  ⟨cap, 0, 0, fun _ => d⟩

/-- Modelled from the spec: occupied space, derived from the cursor
difference, reported without mutation. -/
def AvailableToGet (rb : RingBuffer α) : Nat :=
  rb.writePos - rb.readPos

/-- Modelled from the spec: free space, derived from the cursor
difference, reported without mutation. -/
def AvailableToPut (rb : RingBuffer α) : Nat :=
  rb.capacity - (rb.writePos - rb.readPos)

/-- Writes a list of samples into the backing store at consecutive
cursor positions, each reduced modulo the capacity. -/
def writeSeq (cap : Nat) (buf : Nat → α) (pos : Nat) : List α → (Nat → α)
  | [] => buf
  | x :: xs => writeSeq cap (fun i => if i = pos % cap then x else buf i) (pos + 1) xs

/-- Modelled from the spec: `Put(samples, count)` appends up to `count`
samples, returns the number actually written (may be less than
requested if the buffer is full); it is a total function, so it never
blocks and never throws. -/
def Put (rb : RingBuffer α) (samples : List α) : RingBuffer α × Nat :=
  let n := min samples.length (AvailableToPut rb)
  ({ rb with
      store := writeSeq rb.capacity rb.store rb.writePos (samples.take n)
      writePos := rb.writePos + n },
   n)

/-- Modelled from the spec: `Get(count)`, symmetric to `Put`; returns
the samples actually read (possibly fewer than requested) and advances
the read cursor by their number. -/
def Get (rb : RingBuffer α) (count : Nat) : RingBuffer α × List α :=
  let n := min count (AvailableToGet rb)
  ({ rb with readPos := rb.readPos + n },
   (List.range n).map fun k => rb.store ((rb.readPos + k) % rb.capacity))

/-- The queue of samples currently held: the store read at the cursor
positions between the read and the write cursor. -/
def contents (rb : RingBuffer α) : List α :=
  (List.range (AvailableToGet rb)).map fun k => rb.store ((rb.readPos + k) % rb.capacity)

/-- One producer or consumer operation on the ring buffer. -/
inductive Op (α : Type) where
  | put : List α → Op α
  | get : Nat → Op α

/-- One step of a `Put` / `Get` history: the state is the buffer
together with the concatenation of all samples accepted by `Put` so
far and the concatenation of all samples returned by `Get` so far. -/
def step (acc : RingBuffer α × List α × List α) (op : Op α) :
    RingBuffer α × List α × List α :=
  match op with
  | .put xs =>
      let pr := Put acc.1 xs
      (pr.1, acc.2.1 ++ xs.take pr.2, acc.2.2)
  | .get n =>
      let pr := Get acc.1 n
      (pr.1, acc.2.1, acc.2.2 ++ pr.2)

/-- Runs a sequence of operations from a given history state. -/
def runOps (acc : RingBuffer α × List α × List α) :
    List (Op α) → RingBuffer α × List α × List α
  | [] => acc
  | op :: ops => runOps (step acc op) ops

end RingBuffer

/-! ## Playback Schedule

Modelled from the spec (section 4.2): `PlaybackSchedule` is a member of
`AudioIoCallback` (src/AudioIO.h line 485, with loop bounds `mT0`,
`mT1` referenced around line 263), but the PlaybackSchedule header and
implementation are not under the source tree.  State per the spec:
track time, loop bounds, looping mode and done flag.  `Advance` updates
track time, wrapping to loop start when the loop end is crossed and
looping is enabled, and sets the done flag when not looping and the
track end is reached; when a requested slice would cross the end of a
non-looping selection it returns fewer frames than requested and flags
completion.
-/

structure PlaybackSchedule where
  mT0 : ℚ
  mT1 : ℚ
  trackTime : ℚ
  looping : Bool
  done : Bool
deriving DecidableEq

/-- Floor-based rational remainder, used for wrapping past the loop
end: the representative of `x` modulo `m` lying in `[0, m)` when
`0 < m`. -/
def qfmod (x m : ℚ) : ℚ := x - m * ⌊x / m⌋

/-- Modelled from the spec: update track time by an elapsed track-time
increment, wrapping to loop start plus the remainder when looping and
the loop end is crossed, and clamping to the end with the done flag set
when not looping and the end is reached. -/
def advanceTime (s : PlaybackSchedule) (delta : ℚ) : PlaybackSchedule :=
  if s.looping then
    if s.mT0 < s.mT1 ∧ s.mT1 ≤ s.trackTime + delta then
      { s with trackTime :=
          s.mT0 + qfmod (s.trackTime + delta - s.mT0) (s.mT1 - s.mT0) }
    else
      { s with trackTime := s.trackTime + delta }
  else if s.mT1 ≤ s.trackTime + delta then
    { s with trackTime := s.mT1, done := true }
  else
    { s with trackTime := s.trackTime + delta }

/-- Modelled from the spec: how many output frames at integer sample
rate `rate` remain before the schedule reaches its end time. -/
def availFrames (s : PlaybackSchedule) (rate : Nat) : Nat :=
  ⌈(s.mT1 - s.trackTime) * (rate : ℚ)⌉₊

/-- Modelled from the spec: `Advance(framesRequested)` produces up to
the requested number of frames (all of them when looping; otherwise no
more than remain before the end), advances track time accordingly, and
reports the completion flag exactly when this call newly set the done
flag.  After completion, further calls produce nothing and do not
report completion again. -/
def advance (s : PlaybackSchedule) (rate : Nat) (requested : Nat) :
    PlaybackSchedule × Nat × Bool :=
  if s.done then (s, 0, false)
  else
    (advanceTime s
        (((if s.looping then requested else min requested (availFrames s rate)) : ℚ) /
          (rate : ℚ)),
     if s.looping then requested else min requested (availFrames s rate),
     (advanceTime s
        (((if s.looping then requested else min requested (availFrames s rate)) : ℚ) /
          (rate : ℚ))).done && !s.done)

/-- Runs a sequence of `Advance` requests, collecting for each call the
frames produced and the reported completion flag. -/
def runAdvance (s : PlaybackSchedule) (rate : Nat) :
    List Nat → List (Nat × Bool) × PlaybackSchedule
  | [] => ([], s)
  | r :: rs =>
      (((advance s rate r).2.1, (advance s rate r).2.2) ::
          (runAdvance (advance s rate r).1 rate rs).1,
       (runAdvance (advance s rate r).1 rate rs).2)

/-- Runs a sequence of raw track-time advances (loop-wrap testing). -/
def runTimeAdvance (s : PlaybackSchedule) : List ℚ → PlaybackSchedule
  | [] => s
  | d :: ds => runTimeAdvance (advanceTime s d) ds

/-- Sum of the first `k` requests of a request sequence. -/
def sumOfTake (rs : List Nat) (k : Nat) : Nat := (rs.take k).sum

/-! ## Rate negotiation

Modelled from the spec (section 4.5, "Rate negotiation"):
`AudioIO::GetBestRate` is declared at src/AudioIO.h line 590 but its
translation unit is not under the source tree.  Per the spec it
intersects the supported-rate sets of the selected input and output
devices with the requested rate and a fixed set of standard rates,
preferring the requested rate, then 48000, then 44100, then the
highest supported rate, and returns 0 when no common rate exists.
-/

/-- Modelled from the spec: the fixed set of standard sample rates
(`AudioIOBase::StandardRates` is declared at
lib-audio-devices/AudioIOBase.h line 226; its defining translation
unit is not under the source tree). -/
def standardRates : List Nat :=
  [8000, 11025, 16000, 22050, 32000, 44100, 48000,
   88200, 96000, 176400, 192000, 352800, 384000]

/-- Modelled from the spec: the rates supported in common by the
devices that the stream will use (both devices when capturing and
playing, else the one active device). -/
def supportedCommonRates (capturing playing : Bool)
    (captureRates playRates : List Nat) : List Nat :=
  if capturing && playing then
    captureRates.filter (fun r => playRates.contains r)
  else if capturing then captureRates
  else playRates

/-- Modelled from the spec: the candidate rates — common supported
rates restricted to the standard rates plus the requested rate. -/
def rateCandidates (capturing playing : Bool) (requestedRate : Nat)
    (captureRates playRates : List Nat) : List Nat :=
  (supportedCommonRates capturing playing captureRates playRates).filter
    (fun r => standardRates.contains r || r == requestedRate)

/-- Modelled from the spec: `GetBestRate` — the requested rate if it is
a candidate, else 48000, else 44100, else the highest candidate, and 0
when there are no candidates. -/
def GetBestRate (capturing playing : Bool) (requestedRate : Nat)
    (captureRates playRates : List Nat) : Nat :=
  let cands := rateCandidates capturing playing requestedRate captureRates playRates
  if requestedRate ∈ cands then requestedRate
  else if 48000 ∈ cands then 48000
  else if 44100 ∈ cands then 44100
  else cands.foldr max 0

/-! ## Device catalog

Translated from lib-audio-devices/DeviceManager.cpp and
DeviceManager.h.  PortAudio is the environment: a fixed list of device
records (`Pa_GetDeviceInfo`) and a host-api name table
(`Pa_GetHostApiInfo(h)->name`).  The `Device` record type lives in
Device.h, which is not under the source tree; its fields are modelled
from the spec ("Device Descriptor: host API id, device index, display
name, channel count, type (input/output)") together with the setters
called by `FillHostDeviceInfo`.  The model covers the non-Windows
build (the `__WXMSW__` conditional blocks compile away) and omits the
PortAudio restart, the monitor-stop wait and the GUI event broadcast in
`Rescan`, which do not touch the device lists.
-/

structure PaDeviceInfo where
  name : String
  hostApi : Nat
  maxInputChannels : Int
  maxOutputChannels : Int
  defaultSampleRate : Int
deriving DecidableEq

structure PaEnv where
  devices : List PaDeviceInfo
  hostApiNames : Nat → String

/-- PortAudio device query: `Pa_GetDeviceInfo(i)`. -/
def paGetDeviceInfo (env : PaEnv) (i : Nat) : PaDeviceInfo :=
  env.devices.getD i ⟨"", 0, 0, 0, 0⟩

inductive DeviceType where
  | Input : DeviceType
  | Output : DeviceType
deriving DecidableEq

structure Device where
  deviceIndex : Nat
  hostIndex : Nat
  name : String
  hostName : String
  numChannels : Int
  deviceType : DeviceType
deriving DecidableEq

/-- From DeviceManager.cpp, `FillHostDeviceInfo` (lines 83 to 94): sets
every field of the descriptor from the PortAudio record, choosing the
channel count and the descriptor type by `isInput`. -/
def FillHostDeviceInfo (env : PaEnv) (info : PaDeviceInfo)
    (deviceIndex : Nat) (isInput : Bool) : Device :=
  { deviceIndex := deviceIndex
    hostIndex := info.hostApi
    name := info.name
    hostName := env.hostApiNames info.hostApi
    numChannels := if isInput then info.maxInputChannels else info.maxOutputChannels
    deviceType := if isInput then DeviceType.Input else DeviceType.Output }

/-- From DeviceManager.cpp, `AddSources` (lines 115 to 124): appends
one descriptor for the device to the given list.  The source calls
`FillHostDeviceInfo` with the literal `true` as its `isInput` argument,
ignoring the `isInput` parameter that the caller passed; the model
mirrors that literal.  The `rate` argument is unused, as in the
source. -/
def AddSources (env : PaEnv) (deviceIndex : Nat) (rate : Int)
    (devices : List Device) (isInput : Bool) : List Device :=
  let info := paGetDeviceInfo env deviceIndex
  let device := FillHostDeviceInfo env info deviceIndex true
  devices ++ [device]

structure DeviceManager where
  m_inited : Bool
  mInputDeviceSources : List Device
  mOutputDeviceSources : List Device
deriving DecidableEq

/-- From DeviceManager.cpp, `DeviceManager::Rescan` (lines 135 to 193):
clears both stored lists, then walks every PortAudio device in index
order, appending to the output list when `maxOutputChannels > 0` and to
the input list when `maxInputChannels > 0`, and finally marks the
manager initialized. -/
def Rescan (env : PaEnv) (dm : DeviceManager) : DeviceManager :=
  let scanned := (List.range env.devices.length).foldl
    (fun acc i =>
      let info := paGetDeviceInfo env i
      let acc1 :=
        if 0 < info.maxOutputChannels then
          (acc.1, AddSources env i info.defaultSampleRate acc.2 false)
        else acc
      if 0 < info.maxInputChannels then
        (AddSources env i info.defaultSampleRate acc1.1 true, acc1.2)
      else acc1)
    (([] : List Device), ([] : List Device))
  { m_inited := true
    mInputDeviceSources := scanned.1
    mOutputDeviceSources := scanned.2 }

/-- From DeviceManager.cpp, `DeviceManager::Init` (lines 219 to 228):
does the initial scan. -/
def InitDM (env : PaEnv) (dm : DeviceManager) : DeviceManager :=
  Rescan env dm

/-- From DeviceManager.cpp, `DeviceManager::GetInputDevices` (lines 35
to 40): lazily initializes on first use, then returns the stored input
list.  Returns the (possibly updated) manager state together with the
returned list. -/
def GetInputDevices (env : PaEnv) (dm : DeviceManager) :
    DeviceManager × List Device :=
  let dm2 := if dm.m_inited then dm else InitDM env dm
  (dm2, dm2.mInputDeviceSources)

/-- From DeviceManager.cpp, `DeviceManager::GetOutputDevices` (lines 41
to 46): lazily initializes on first use, then returns the stored output
list. -/
def GetOutputDevices (env : PaEnv) (dm : DeviceManager) :
    DeviceManager × List Device :=
  let dm2 := if dm.m_inited then dm else InitDM env dm
  (dm2, dm2.mOutputDeviceSources)

/-! ## Latency preference commit

Translated from src/prefs/DevicePrefs.cpp, `DevicePrefs::Commit`
(lines 418 to 444).  `AudioIOLatencyDuration` is a double-valued
preference; doubles are modelled as rationals.  The C cast
`static_cast<int>(latency)` truncates toward zero.
`QualitySettings::DefaultSampleRate.Read() / 1000`, the
milliseconds-to-samples factor, is abstracted as the parameter
`msFactor` because lib-project-rate/QualitySettings is not under the
source tree; the source uses one and the same expression for both
conversion directions.
-/

/-- Truncation toward zero, the semantics of `static_cast<int>` on a
real value. -/
def ratTrunc (x : ℚ) : Int := if 0 ≤ x then ⌊x⌋ else ⌈x⌉

/-- From DevicePrefs.cpp lines 418 to 444: read the stored latency
duration, convert to samples when the chosen unit is milliseconds, and
when the truncated value is below 32 samples replace it by exactly 32
samples (converted back to milliseconds when that is the unit).
Returns the preference value stored after `Commit`. -/
def commitLatencyDuration (stored : ℚ) (isMilliseconds : Bool) (msFactor : ℚ) : ℚ :=
  let latency := if isMilliseconds then stored * msFactor else stored
  if ratTrunc latency < 32 then
    if isMilliseconds then 32 / msFactor else 32
  else stored

/-- The sample count that a stored latency preference denotes. -/
def latencyInSamples (v : ℚ) (isMilliseconds : Bool) (msFactor : ℚ) : ℚ :=
  if isMilliseconds then v * msFactor else v

/-! ## Transport controller: StartStream

Modelled from the spec (sections 4.5 and 7):
`AudioIO::StartStream`, `AudioIO::AllocateBuffers` and
`AudioIO::StartStreamCleanup` are declared in src/AudioIO.h (lines 515,
657 and 665) but their translation unit is not under the source tree.
Per the spec, StartStream validates device and rate compatibility,
allocates per-channel ring buffers and mixers, opens the hardware
stream, starts the worker thread and returns a fresh token; on any
failure (unsupported rate, allocation failure, device unavailable) it
rolls back all partial allocations and returns a descriptive failure,
leaving no partial state running.  The environment records the outcome
of the fallible external steps.
-/

structure EngineState where
  mNextStreamToken : Nat
  mStreamToken : Nat
  ringBuffersAllocated : Bool
  mixersAllocated : Bool
  portStreamOpen : Bool
  audioThreadRunning : Bool
deriving DecidableEq

structure StartStreamEnv where
  bestRate : Nat
  allocationOk : Bool
  deviceAvailable : Bool
deriving DecidableEq

/-- Modelled from the spec: clean up after StartStream if it fails
(declared src/AudioIO.h line 665); releases the buffers and mixers, and
unless `bOnlyBuffers` also closes the hardware stream, stops the worker
and clears the active-stream token. -/
def StartStreamCleanup (bOnlyBuffers : Bool) (st : EngineState) : EngineState :=
  let st1 := { st with ringBuffersAllocated := false, mixersAllocated := false }
  if bOnlyBuffers then st1
  else { st1 with portStreamOpen := false, audioThreadRunning := false, mStreamToken := 0 }

/-- Modelled from the spec: `StartStream`.  Returns the engine state
after the call together with either a fresh stream token or a
diagnostic failure message. -/
def StartStream (env : StartStreamEnv) (st : EngineState) :
    EngineState × Except String Nat :=
  if env.bestRate = 0 then
    (st, Except.error "The requested sample rate is not supported by the devices")
  else
    let st1 := { st with ringBuffersAllocated := true, mixersAllocated := true }
    if env.allocationOk = false then
      (StartStreamCleanup true st1,
       Except.error "Out of memory: could not allocate audio buffers")
    else if env.deviceAvailable = false then
      (StartStreamCleanup false st1,
       Except.error "Error opening sound device")
    else
      let token := st.mNextStreamToken + 1
      ({ st1 with
          portStreamOpen := true
          audioThreadRunning := true
          mStreamToken := token
          mNextStreamToken := token },
       Except.ok token)

/-- An engine with no stream open and nothing allocated: the state in
which StartStream is legitimately called. -/
def quiescent (st : EngineState) : Prop :=
  st.ringBuffersAllocated = false ∧ st.mixersAllocated = false ∧
  st.portStreamOpen = false ∧ st.audioThreadRunning = false ∧
  st.mStreamToken = 0

/-! ## Theorems: Ring Buffer -/

namespace RingBuffer

theorem mod_ne_of_window {a b cap : Nat} (hab : a < b) (hb : b < a + cap) :
    a % cap ≠ b % cap := by
  intro h
  have hba : a ≤ b := le_of_lt hab
  have hdvd : cap ∣ b - a := (Nat.modEq_iff_dvd' hba).mp h
  have h1 : 0 < b - a := Nat.sub_pos_of_lt hab
  have h2 : b - a < cap := by omega
  exact absurd (Nat.le_of_dvd h1 hdvd) (not_le.mpr h2)

theorem writeSeq_untouched (xs : List α) :
    ∀ (cap : Nat) (buf : Nat → α) (pos i : Nat),
      (∀ k, k < xs.length → i ≠ (pos + k) % cap) →
      writeSeq cap buf pos xs i = buf i := by
  induction xs with
  | nil => intro cap buf pos i _; rfl
  | cons x xs ih =>
      intro cap buf pos i h
      show writeSeq cap (fun j => if j = pos % cap then x else buf j) (pos + 1) xs i = buf i
      rw [ih cap _ (pos + 1) i (fun k hk => by
        have := h (k + 1) (by simpa using Nat.succ_lt_succ hk)
        simpa [Nat.add_assoc, Nat.add_comm 1 k] using this)]
      have h0 : i ≠ pos % cap := by simpa using h 0 (Nat.succ_pos _)
      simp [h0]

theorem writeSeq_get (xs : List α) :
    ∀ (cap : Nat) (buf : Nat → α) (pos j : Nat)
      (hcap : xs.length ≤ cap) (hj : j < xs.length),
      writeSeq cap buf pos xs ((pos + j) % cap) = xs.get ⟨j, hj⟩ := by
  induction xs with
  | nil => intro cap buf pos j _ hj; exact absurd hj (by simp)
  | cons x xs ih =>
      intro cap buf pos j hlen hj
      match j with
      | 0 =>
          show writeSeq cap (fun i => if i = pos % cap then x else buf i)
            (pos + 1) xs (pos % cap) = x
          rw [writeSeq_untouched xs cap _ (pos + 1) (pos % cap) (fun k hk => by
            have hlt : pos < pos + 1 + k := by omega
            have hup : pos + 1 + k < pos + cap := by
              simp only [List.length_cons] at hlen; omega
            exact mod_ne_of_window hlt hup)]
          simp
      | j + 1 =>
          show writeSeq cap (fun i => if i = pos % cap then x else buf i)
            (pos + 1) xs ((pos + (j + 1)) % cap) = xs.get ⟨j, _⟩
          have harr : pos + (j + 1) = (pos + 1) + j := by omega
          rw [harr]
          exact ih cap _ (pos + 1) j
            (by simp only [List.length_cons] at hlen; omega)
            (by simpa using Nat.lt_of_succ_lt_succ (by simpa using hj))

theorem put_fst (rb : RingBuffer α) (xs : List α) :
    (Put rb xs).1 = ⟨rb.capacity, rb.readPos,
      rb.writePos + min xs.length (AvailableToPut rb),
      writeSeq rb.capacity rb.store rb.writePos
        (xs.take (min xs.length (AvailableToPut rb)))⟩ := rfl

theorem put_snd (rb : RingBuffer α) (xs : List α) :
    (Put rb xs).2 = min xs.length (AvailableToPut rb) := rfl

theorem get_fst (rb : RingBuffer α) (m : Nat) :
    (Get rb m).1 = ⟨rb.capacity, rb.readPos + min m (AvailableToGet rb),
      rb.writePos, rb.store⟩ := rfl

theorem get_snd (rb : RingBuffer α) (m : Nat) :
    (Get rb m).2 = (List.range (min m (AvailableToGet rb))).map
      (fun k => rb.store ((rb.readPos + k) % rb.capacity)) := rfl

theorem contents_mk (cap r w : Nat) (st : Nat → α) :
    contents ⟨cap, r, w, st⟩ =
      (List.range (w - r)).map (fun k => st ((r + k) % cap)) := rfl

theorem contents_put (rb : RingBuffer α) (xs : List α)
    (hrw : rb.readPos ≤ rb.writePos)
    (hcap : rb.writePos ≤ rb.readPos + rb.capacity) :
    contents (Put rb xs).1 =
      contents rb ++ xs.take (min xs.length (AvailableToPut rb)) := by
  obtain ⟨cap, r, w, st⟩ := rb
  simp only [AvailableToPut] at *
  rw [put_fst]
  simp only [AvailableToPut, contents_mk]
  set n := min xs.length (cap - (w - r)) with hndef
  have hnle : n ≤ cap - (w - r) := min_le_right _ _
  have hnxs : n ≤ xs.length := min_le_left _ _
  apply List.ext_getElem
  · simp only [List.length_map, List.length_range, List.length_append,
      List.length_take]
    omega
  · intro k hk1 hk2
    simp only [List.length_map, List.length_range] at hk1
    simp only [List.getElem_map, List.getElem_range]
    by_cases hlow : k < w - r
    · rw [List.getElem_append_left (by
        simpa [contents_mk] using hlow)]
      simp only [contents_mk, List.getElem_map, List.getElem_range]
      rw [writeSeq_untouched (xs.take n) cap st w _
        (fun j hj => by
          have hj2 : j < n := by
            simp only [List.length_take] at hj; omega
          have hlt : r + k < w + j := by omega
          have hup : w + j < r + k + cap := by omega
          exact mod_ne_of_window hlt hup)]
    · have hklen : w - r ≤ k := le_of_not_lt hlow
      rw [List.getElem_append_right (by
        simpa [contents_mk] using hklen)]
      simp only [contents_mk, List.length_map, List.length_range]
      have hjn : k - (w - r) < n := by omega
      have hjlen : k - (w - r) < (xs.take n).length := by
        simp [List.length_take]; omega
      have hpos : r + k = w + (k - (w - r)) := by omega
      rw [hpos]
      rw [writeSeq_get (xs.take n) cap st w (k - (w - r))
        (by simp [List.length_take]; omega) hjlen]
      simp [List.get_eq_getElem]

theorem get_spec (rb : RingBuffer α) (m : Nat)
    (hrw : rb.readPos ≤ rb.writePos) :
    (Get rb m).2 = (contents rb).take (min m (AvailableToGet rb)) ∧
    contents (Get rb m).1 = (contents rb).drop (min m (AvailableToGet rb)) := by
  obtain ⟨cap, r, w, st⟩ := rb
  simp only [AvailableToGet] at *
  rw [get_fst, get_snd]
  simp only [AvailableToGet, contents_mk]
  set n := min m (w - r) with hndef
  have hnle : n ≤ w - r := min_le_right _ _
  constructor
  · rw [← List.map_take, List.take_range, min_eq_left hnle]
  · apply List.ext_getElem
    · simp only [List.length_map, List.length_range, List.length_drop]
      omega
    · intro k hk1 hk2
      simp only [List.length_map, List.length_range] at hk1
      simp only [List.getElem_map, List.getElem_range]
      rw [List.getElem_drop]
      simp only [List.getElem_map, List.getElem_range]
      rw [Nat.add_assoc]

theorem invariant_step (acc : RingBuffer α × List α × List α) (op : Op α)
    (h1 : acc.1.readPos ≤ acc.1.writePos)
    (h2 : acc.1.writePos ≤ acc.1.readPos + acc.1.capacity)
    (h3 : acc.2.1 = acc.2.2 ++ contents acc.1) :
    (step acc op).1.readPos ≤ (step acc op).1.writePos ∧
    (step acc op).1.writePos ≤ (step acc op).1.readPos + (step acc op).1.capacity ∧
    (step acc op).2.1 = (step acc op).2.2 ++ contents (step acc op).1 := by
  obtain ⟨rb, puts, gets⟩ := acc
  simp only at h1 h2 h3
  cases op with
  | put xs =>
      have hc := contents_put rb xs h1 h2
      refine ⟨?_, ?_, ?_⟩
      · show rb.readPos ≤ rb.writePos + min xs.length (AvailableToPut rb)
        omega
      · show rb.writePos + min xs.length (AvailableToPut rb) ≤
          rb.readPos + rb.capacity
        have hnle : min xs.length (AvailableToPut rb) ≤ AvailableToPut rb :=
          min_le_right _ _
        have hav : AvailableToPut rb = rb.capacity - (rb.writePos - rb.readPos) :=
          rfl
        omega
      · show puts ++ xs.take (Put rb xs).2 = gets ++ contents (Put rb xs).1
        rw [h3, hc, put_snd, List.append_assoc]
  | get m =>
      have hg := get_spec rb m h1
      refine ⟨?_, ?_, ?_⟩
      · show rb.readPos + min m (AvailableToGet rb) ≤ rb.writePos
        have hnle : min m (AvailableToGet rb) ≤ AvailableToGet rb :=
          min_le_right _ _
        have hav : AvailableToGet rb = rb.writePos - rb.readPos := rfl
        omega
      · show rb.writePos ≤ rb.readPos + min m (AvailableToGet rb) + rb.capacity
        omega
      · show puts = (gets ++ (Get rb m).2) ++ contents (Get rb m).1
        rw [h3, hg.1, hg.2, List.append_assoc, List.take_append_drop]

theorem capacity_step (acc : RingBuffer α × List α × List α) (op : Op α) :
    (step acc op).1.capacity = acc.1.capacity := by
  cases op <;> rfl

theorem capacity_run (ops : List (Op α)) :
    ∀ (acc : RingBuffer α × List α × List α),
      (runOps acc ops).1.capacity = acc.1.capacity := by
  induction ops with
  | nil => intro acc; rfl
  | cons op ops ih =>
      intro acc
      rw [show runOps acc (op :: ops) = runOps (step acc op) ops from rfl,
        ih (step acc op), capacity_step]

theorem invariant_run (ops : List (Op α)) :
    ∀ (acc : RingBuffer α × List α × List α),
      acc.1.readPos ≤ acc.1.writePos →
      acc.1.writePos ≤ acc.1.readPos + acc.1.capacity →
      acc.2.1 = acc.2.2 ++ contents acc.1 →
      (runOps acc ops).1.readPos ≤ (runOps acc ops).1.writePos ∧
      (runOps acc ops).1.writePos ≤
        (runOps acc ops).1.readPos + (runOps acc ops).1.capacity ∧
      (runOps acc ops).2.1 = (runOps acc ops).2.2 ++ contents (runOps acc ops).1 := by
  induction ops with
  | nil => intro acc h1 h2 h3; exact ⟨h1, h2, h3⟩
  | cons op ops ih =>
      intro acc h1 h2 h3
      have hstep := invariant_step acc op h1 h2 h3
      exact ih (step acc op) hstep.1 hstep.2.1 hstep.2.2

end RingBuffer

/-- C2: starting from the empty ring buffer of capacity `cap`, after
any finite sequence of `Put` and `Get` operations the occupied and free
counts sum to the capacity, and the samples handed out by the `Get`
calls (in order) are a prefix of the samples accepted by the `Put`
calls (in order) — no `Get` ever returns a sample that was not
previously `Put`. -/
theorem ringBuffer_conservation (α : Type) (cap : Nat) (d : α)
    (ops : List (RingBuffer.Op α)) :
    RingBuffer.AvailableToGet
        (RingBuffer.runOps (RingBuffer.empty α cap d, [], []) ops).1 +
      RingBuffer.AvailableToPut
        (RingBuffer.runOps (RingBuffer.empty α cap d, [], []) ops).1 = cap ∧
    (RingBuffer.runOps (RingBuffer.empty α cap d, [], []) ops).2.2 <+:
      (RingBuffer.runOps (RingBuffer.empty α cap d, [], []) ops).2.1 := by
  have h := RingBuffer.invariant_run ops (RingBuffer.empty α cap d, [], [])
    (by simp [RingBuffer.empty]) (by simp [RingBuffer.empty])
    (by simp [RingBuffer.empty, RingBuffer.contents, RingBuffer.AvailableToGet])
  obtain ⟨h1, h2, h3⟩ := h
  constructor
  · have hcap : (RingBuffer.runOps (RingBuffer.empty α cap d, [], []) ops).1.capacity
        = cap := RingBuffer.capacity_run ops _
    simp only [RingBuffer.AvailableToGet, RingBuffer.AvailableToPut, hcap] at h1 h2 ⊢
    omega
  · exact ⟨_, h3.symm⟩

/-- C3: `Put` and `Get` truncate instead of blocking or failing.  A
`Put` of more samples than `AvailableToPut` writes exactly
`AvailableToPut` samples (the write cursor advances by that amount) and
returns that count; a `Get` of more samples than `AvailableToGet`
returns exactly the `AvailableToGet` samples currently held and reports
their count.  Both are total functions: they never block and never
throw. -/
theorem ringBuffer_truncating_ops (α : Type) (rb : RingBuffer α)
    (xs : List α) (m : Nat) :
    (RingBuffer.AvailableToPut rb < xs.length →
      (RingBuffer.Put rb xs).2 = RingBuffer.AvailableToPut rb ∧
      (RingBuffer.Put rb xs).1.writePos =
        rb.writePos + RingBuffer.AvailableToPut rb) ∧
    (RingBuffer.AvailableToGet rb < m →
      (RingBuffer.Get rb m).2.length = RingBuffer.AvailableToGet rb ∧
      (RingBuffer.Get rb m).2 = RingBuffer.contents rb) := by
  constructor
  · intro h
    have hmin : min xs.length (RingBuffer.AvailableToPut rb) =
        RingBuffer.AvailableToPut rb := min_eq_right (le_of_lt h)
    constructor
    · rw [RingBuffer.put_snd, hmin]
    · rw [RingBuffer.put_fst, hmin]
  · intro h
    have hmin : min m (RingBuffer.AvailableToGet rb) =
        RingBuffer.AvailableToGet rb := min_eq_right (le_of_lt h)
    constructor
    · rw [RingBuffer.get_snd, hmin]
      simp
    · rw [RingBuffer.get_snd, hmin]
      rfl

/-- Witness for C3 at a concrete buffer: capacity 2 holding one sample
`5`, an oversized `Put` of two samples accepts one, an oversized `Get`
of three samples returns just `[5]`. -/
theorem ringBuffer_truncating_ops_witness :
    (RingBuffer.Put (⟨2, 0, 1, fun _ => (5 : Int)⟩ : RingBuffer Int) [7, 8]).2 = 1 ∧
    (RingBuffer.Get (⟨2, 0, 1, fun _ => (5 : Int)⟩ : RingBuffer Int) 3).2 = [5] := by
  have h := ringBuffer_truncating_ops Int ⟨2, 0, 1, fun _ => (5 : Int)⟩ [7, 8] 3
  constructor
  · rw [(h.1 (by decide)).1]
    rfl
  · rw [(h.2 (by decide)).2]
    rfl

/-! ## Theorems: Playback Schedule -/

theorem qfmod_nonneg (x m : ℚ) (hm : 0 < m) : 0 ≤ qfmod x m := by
  unfold qfmod
  have h := Int.floor_le (x / m)
  have h2 : m * ((⌊x / m⌋ : ℤ) : ℚ) ≤ m * (x / m) :=
    mul_le_mul_of_nonneg_left h (le_of_lt hm)
  rw [mul_comm m (x / m), div_mul_cancel₀ x (ne_of_gt hm)] at h2
  linarith

theorem qfmod_lt (x m : ℚ) (hm : 0 < m) : qfmod x m < m := by
  unfold qfmod
  have h := Int.lt_floor_add_one (x / m)
  have h2 : m * (x / m) < m * (((⌊x / m⌋ : ℤ) : ℚ) + 1) :=
    (mul_lt_mul_left hm).mpr h
  rw [mul_comm m (x / m), div_mul_cancel₀ x (ne_of_gt hm)] at h2
  linarith

theorem qfmod_of_window (x m : ℚ) (hm : 0 < m) (h1 : m ≤ x) (h2 : x < 2 * m) :
    qfmod x m = x - m := by
  unfold qfmod
  have hfl : ⌊x / m⌋ = 1 := by
    rw [Int.floor_eq_iff]
    constructor
    · push_cast
      rw [le_div_iff₀ hm]
      linarith
    · push_cast
      rw [div_lt_iff₀ hm]
      linarith
  rw [hfl]
  push_cast
  ring

theorem advanceTime_fields (s : PlaybackSchedule) (delta : ℚ) :
    (advanceTime s delta).mT0 = s.mT0 ∧ (advanceTime s delta).mT1 = s.mT1 ∧
    (advanceTime s delta).looping = s.looping := by
  unfold advanceTime
  split
  · split <;> exact ⟨rfl, rfl, rfl⟩
  · split <;> exact ⟨rfl, rfl, rfl⟩

theorem advanceTime_loop_cross (s : PlaybackSchedule) (delta : ℚ)
    (hloop : s.looping = true) (h01 : s.mT0 < s.mT1)
    (hcross : s.mT1 ≤ s.trackTime + delta)
    (hbound : s.trackTime + delta < s.mT1 + (s.mT1 - s.mT0)) :
    (advanceTime s delta).trackTime = s.mT0 + (s.trackTime + delta - s.mT1) := by
  unfold advanceTime
  rw [if_pos (by rw [hloop]), if_pos ⟨h01, hcross⟩]
  have hm : 0 < s.mT1 - s.mT0 := by linarith
  rw [qfmod_of_window (s.trackTime + delta - s.mT0) (s.mT1 - s.mT0) hm
    (by linarith) (by linarith)]
  ring_nf

theorem advanceTime_loop_mem (s : PlaybackSchedule) (delta : ℚ)
    (hloop : s.looping = true) (h01 : s.mT0 < s.mT1)
    (hlo : s.mT0 ≤ s.trackTime) (hhi : s.trackTime < s.mT1) (hd : 0 ≤ delta) :
    s.mT0 ≤ (advanceTime s delta).trackTime ∧
    (advanceTime s delta).trackTime < s.mT1 := by
  unfold advanceTime
  rw [if_pos (by rw [hloop])]
  by_cases hcross : s.mT0 < s.mT1 ∧ s.mT1 ≤ s.trackTime + delta
  · rw [if_pos hcross]
    have hm : 0 < s.mT1 - s.mT0 := by linarith
    have hge := qfmod_nonneg (s.trackTime + delta - s.mT0) (s.mT1 - s.mT0) hm
    have hlt := qfmod_lt (s.trackTime + delta - s.mT0) (s.mT1 - s.mT0) hm
    constructor <;> simp only <;> linarith
  · rw [if_neg hcross]
    push_neg at hcross
    have hraw : s.trackTime + delta < s.mT1 := hcross h01
    constructor <;> simp only <;> linarith

theorem runTimeAdvance_loop_mem (ds : List ℚ) :
    ∀ (s : PlaybackSchedule), s.looping = true → s.mT0 < s.mT1 →
      s.mT0 ≤ s.trackTime → s.trackTime < s.mT1 →
      (∀ d ∈ ds, 0 ≤ d) →
      (runTimeAdvance s ds).mT0 = s.mT0 ∧
      (runTimeAdvance s ds).mT1 = s.mT1 ∧
      s.mT0 ≤ (runTimeAdvance s ds).trackTime ∧
      (runTimeAdvance s ds).trackTime < s.mT1 := by
  induction ds with
  | nil => intro s _ _ hlo hhi _; exact ⟨rfl, rfl, hlo, hhi⟩
  | cons d ds ih =>
      intro s hloop h01 hlo hhi hall
      have hfields := advanceTime_fields s d
      have hmem := advanceTime_loop_mem s d hloop h01 hlo hhi
        (hall d (by simp))
      have hrec := ih (advanceTime s d)
        (by rw [hfields.2.2, hloop])
        (by rw [hfields.1, hfields.2.1]; exact h01)
        (by rw [hfields.1]; exact hmem.1)
        (by rw [hfields.2.1]; exact hmem.2)
        (fun x hx => hall x (by simp [hx]))
      refine ⟨?_, ?_, ?_, ?_⟩
      · show (runTimeAdvance (advanceTime s d) ds).mT0 = s.mT0
        rw [hrec.1, hfields.1]
      · show (runTimeAdvance (advanceTime s d) ds).mT1 = s.mT1
        rw [hrec.2.1, hfields.2.1]
      · show s.mT0 ≤ (runTimeAdvance (advanceTime s d) ds).trackTime
        rw [← hfields.1]; exact hrec.2.2.1
      · show (runTimeAdvance (advanceTime s d) ds).trackTime < s.mT1
        rw [← hfields.2.1]; exact hrec.2.2.2

theorem sumOfTake_zero (rs : List Nat) : sumOfTake rs 0 = 0 := rfl

theorem sumOfTake_cons (r : Nat) (rs : List Nat) (k : Nat) :
    sumOfTake (r :: rs) (k + 1) = r + sumOfTake rs k := by
  simp [sumOfTake, List.take_succ_cons]

theorem sumOfTake_succ (rs : List Nat) (i : Nat) (hi : i < rs.length) :
    sumOfTake rs (i + 1) = sumOfTake rs i + rs.getD i 0 := by
  unfold sumOfTake
  rw [List.sum_take_succ rs i hi, List.getD_eq_getElem rs 0 hi]

theorem availFrames_state (R c : Nat) (hR : 0 < R) (hc : c ≤ 10 * R) :
    availFrames ⟨0, 10, (c : ℚ) / (R : ℚ), false, false⟩ R = 10 * R - c := by
  have hR0 : (R : ℚ) ≠ 0 := Nat.cast_ne_zero.mpr hR.ne'
  unfold availFrames
  have key : ((10 : ℚ) - (c : ℚ) / (R : ℚ)) * (R : ℚ) = ((10 * R - c : ℕ) : ℚ) := by
    rw [Nat.cast_sub hc]
    push_cast
    field_simp
  show ⌈((10 : ℚ) - (c : ℚ) / (R : ℚ)) * (R : ℚ)⌉₊ = 10 * R - c
  rw [key, Nat.ceil_natCast]

theorem advanceTime_nonloop (s : PlaybackSchedule) (delta : ℚ)
    (hloop : s.looping = false) :
    advanceTime s delta =
      if s.mT1 ≤ s.trackTime + delta then { s with trackTime := s.mT1, done := true }
      else { s with trackTime := s.trackTime + delta } := by
  unfold advanceTime
  rw [if_neg (by rw [hloop]; simp)]

theorem advance_eval (s : PlaybackSchedule) (R r : Nat)
    (hdone : s.done = false) (hloop : s.looping = false) :
    advance s R r =
      (advanceTime s ((min r (availFrames s R) : ℚ) / (R : ℚ)),
       min r (availFrames s R),
       (advanceTime s ((min r (availFrames s R) : ℚ) / (R : ℚ))).done) := by
  unfold advance
  rw [hdone, hloop]
  simp

theorem advance_state (R c r : Nat) (hR : 0 < R) (hc : c < 10 * R) :
    advance ⟨0, 10, (c : ℚ) / (R : ℚ), false, false⟩ R r =
      if 10 * R - c ≤ r then
        ((⟨0, 10, 10, false, true⟩ : PlaybackSchedule), 10 * R - c, true)
      else
        ((⟨0, 10, ((c + r : ℕ) : ℚ) / (R : ℚ), false, false⟩ : PlaybackSchedule),
         r, false) := by
  have hR0 : (R : ℚ) ≠ 0 := Nat.cast_ne_zero.mpr hR.ne'
  have hav := availFrames_state R c hR (le_of_lt hc)
  rw [advance_eval _ R r rfl rfl, hav]
  by_cases hcase : 10 * R - c ≤ r
  · have hminN : r ⊓ (10 * R - c) = 10 * R - c := min_eq_right hcase
    have hminQ : (r : ℚ) ⊓ ((10 * R - c : ℕ) : ℚ) = ((10 * R - c : ℕ) : ℚ) :=
      min_eq_right (by exact_mod_cast hcase)
    rw [if_pos hcase, hminN, hminQ, advanceTime_nonloop _ _ rfl]
    have hraw : (c : ℚ) / (R : ℚ) + ((10 * R - c : ℕ) : ℚ) / (R : ℚ) = 10 := by
      rw [div_add_div_same, Nat.cast_sub (le_of_lt hc)]
      push_cast
      field_simp
    rw [if_pos (by
      show (10 : ℚ) ≤ (c : ℚ) / (R : ℚ) + ((10 * R - c : ℕ) : ℚ) / (R : ℚ)
      rw [hraw])]
  · have hler : r ≤ 10 * R - c := by omega
    have hminN : r ⊓ (10 * R - c) = r := min_eq_left hler
    have hminQ : (r : ℚ) ⊓ ((10 * R - c : ℕ) : ℚ) = (r : ℚ) :=
      min_eq_left (by exact_mod_cast hler)
    rw [if_neg hcase, hminN, hminQ, advanceTime_nonloop _ _ rfl]
    have hraw : (c : ℚ) / (R : ℚ) + (r : ℚ) / (R : ℚ) = ((c + r : ℕ) : ℚ) / (R : ℚ) := by
      rw [div_add_div_same]
      norm_cast
    have hlt : (c : ℚ) / (R : ℚ) + (r : ℚ) / (R : ℚ) < 10 := by
      rw [hraw, div_lt_iff₀ (by positivity)]
      have h1 : ((c + r : ℕ) : ℚ) < ((10 * R : ℕ) : ℚ) := by
        exact_mod_cast (by omega : c + r < 10 * R)
      push_cast at h1 ⊢
      linarith
    rw [if_neg (by
      show ¬ ((10 : ℚ) ≤ (c : ℚ) / (R : ℚ) + (r : ℚ) / (R : ℚ))
      push_neg
      exact hlt)]
    rw [show ((⟨0, 10, (c : ℚ) / (R : ℚ), false, false⟩ :
        PlaybackSchedule).trackTime + (r : ℚ) / (R : ℚ)) =
        ((c + r : ℕ) : ℚ) / (R : ℚ) from hraw]

theorem runAdvance_cons (s : PlaybackSchedule) (rate r : Nat) (rs : List Nat) :
    runAdvance s rate (r :: rs) =
      (((advance s rate r).2.1, (advance s rate r).2.2) ::
          (runAdvance (advance s rate r).1 rate rs).1,
       (runAdvance (advance s rate r).1 rate rs).2) := rfl

theorem runAdvance_done (R : Nat) (rs : List Nat) :
    runAdvance ⟨0, 10, 10, false, true⟩ R rs =
      (rs.map (fun _ => (0, false)), ⟨0, 10, 10, false, true⟩) := by
  induction rs with
  | nil => rfl
  | cons r rs ih =>
      rw [runAdvance_cons]
      rw [show advance ⟨0, 10, 10, false, true⟩ R r =
        ((⟨0, 10, 10, false, true⟩ : PlaybackSchedule), 0, false) from rfl]
      rw [ih]
      rfl

theorem getD_map_const (rs : List Nat) (j : Nat) :
    (rs.map (fun _ => ((0 : Nat), false))).getD j (0, false) = (0, false) := by
  by_cases h : j < rs.length
  · rw [List.getD_eq_getElem _ _ (by simpa using h)]
    simp
  · rw [List.getD_eq_default _ _ (by simpa using not_lt.mp h)]

theorem runAdvance_state (R : Nat) (hR : 0 < R) :
    ∀ (rs : List Nat) (c : Nat), c < 10 * R → ∀ (i : Nat), i < rs.length →
      ((((runAdvance ⟨0, 10, (c : ℚ) / (R : ℚ), false, false⟩ R rs).1.getD i
          (0, false)).2 = true) ↔
        (10 * R ≤ c + sumOfTake rs (i + 1) ∧ c + sumOfTake rs i < 10 * R)) ∧
      (((runAdvance ⟨0, 10, (c : ℚ) / (R : ℚ), false, false⟩ R rs).1.getD i
          (0, false)).2 = true →
        ((runAdvance ⟨0, 10, (c : ℚ) / (R : ℚ), false, false⟩ R rs).1.getD i
          (0, false)).1 = 10 * R - (c + sumOfTake rs i)) := by
  intro rs
  induction rs with
  | nil => intro c hc i hi; exact absurd hi (by simp)
  | cons r rs ih =>
      intro c hc i hi
      rw [runAdvance_cons, advance_state R c r hR hc]
      by_cases hcase : 10 * R - c ≤ r
      · rw [if_pos hcase]
        dsimp only
        match i with
        | 0 =>
            simp only [List.getD_cons_zero, sumOfTake_cons, sumOfTake_zero]
            refine ⟨⟨fun _ => ⟨by omega, by omega⟩, fun _ => by simp⟩,
              fun _ => by omega⟩
        | i + 1 =>
            simp only [List.getD_cons_succ]
            rw [runAdvance_done, getD_map_const]
            simp only [sumOfTake_cons]
            have hps : 0 ≤ sumOfTake rs i := Nat.zero_le _
            exact ⟨⟨fun hfalse => absurd hfalse (by simp),
              fun hcontra => absurd hcontra (by omega)⟩,
              fun hfalse => absurd hfalse (by simp)⟩
      · rw [if_neg hcase]
        dsimp only
        match i with
        | 0 =>
            simp only [List.getD_cons_zero, sumOfTake_cons, sumOfTake_zero]
            exact ⟨⟨fun hfalse => absurd hfalse (by simp),
              fun hcontra => absurd hcontra (by omega)⟩,
              fun hfalse => absurd hfalse (by simp)⟩
        | i + 1 =>
            simp only [List.getD_cons_succ, sumOfTake_cons]
            have hc2 : c + r < 10 * R := by omega
            have hrec := ih (c + r) hc2 i (by simpa using Nat.lt_of_succ_lt_succ hi)
            constructor
            · rw [show c + (r + sumOfTake rs (i + 1)) = c + r + sumOfTake rs (i + 1)
                from by omega,
                show c + (r + sumOfTake rs i) = c + r + sumOfTake rs i from by omega]
              exact hrec.1
            · intro h
              rw [hrec.2 h]
              omega

/-- C5: for a looping schedule with loop bounds 2 and 8, an `Advance`
whose increment (at most one loop length) crosses the loop end sets the
new track time to 2 plus the overshoot past 8; and across any sequence
of nonnegative advances from a track time in `[2, 8)` the track time
stays in `[2, 8)` — it never exceeds 8 without wrapping. -/
theorem playbackSchedule_loop_wrap (t delta : ℚ) (ds : List ℚ)
    (hlo : 2 ≤ t) (hhi : t < 8) :
    (0 ≤ delta → delta ≤ 6 → 8 ≤ t + delta →
      (advanceTime ⟨2, 8, t, true, false⟩ delta).trackTime = 2 + (t + delta - 8)) ∧
    ((∀ d ∈ ds, 0 ≤ d) →
      2 ≤ (runTimeAdvance ⟨2, 8, t, true, false⟩ ds).trackTime ∧
      (runTimeAdvance ⟨2, 8, t, true, false⟩ ds).trackTime < 8) := by
  constructor
  · intro h0 h6 hcross
    exact advanceTime_loop_cross ⟨2, 8, t, true, false⟩ delta rfl (by norm_num)
      (by simpa using hcross) (by simp only; linarith)
  · intro hall
    have h := runTimeAdvance_loop_mem ds ⟨2, 8, t, true, false⟩ rfl
      (by norm_num) (by simpa using hlo) (by simpa using hhi) hall
    exact ⟨h.2.2.1, h.2.2.2⟩

/-- Witness for C5: from track time 7, advancing by 3 crosses the loop
end 8 and wraps to `2 + 2 = 4`; and after the advances `[3, 4]` the
track time is still inside `[2, 8)`. -/
theorem playbackSchedule_loop_wrap_witness :
    (advanceTime ⟨2, 8, 7, true, false⟩ 3).trackTime = 4 ∧
    (runTimeAdvance ⟨2, 8, 7, true, false⟩ [3, 4]).trackTime < 8 := by
  have h := playbackSchedule_loop_wrap 7 3 [3, 4] (by norm_num) (by norm_num)
  constructor
  · rw [h.1 (by norm_num) (by norm_num) (by norm_num)]
    norm_num
  · exact (h.2 (by intro d hd; fin_cases hd <;> norm_num)).2

/-- C4: for a non-looping schedule over track time range `[0, 10)` at
integer sample rate `R`, running any sequence of `Advance` requests
from track time 0, the completion flag is reported at call `i` exactly
when the cumulative requested output first reaches the
10-second boundary of `10 * R` frames; at that call the schedule
produces the `10 * R - sumOfTake rs i` remaining frames — no more than
requested, and strictly fewer than requested whenever the request would
cross the boundary — and the flag is never reported at any other call,
so it is reported exactly once. -/
theorem playbackSchedule_completes_once (R : Nat) (hR : 0 < R) (rs : List Nat)
    (i : Nat) (hi : i < rs.length) :
    ((((runAdvance ⟨0, 10, 0, false, false⟩ R rs).1.getD i (0, false)).2 = true) ↔
      (10 * R ≤ sumOfTake rs (i + 1) ∧ sumOfTake rs i < 10 * R)) ∧
    (((runAdvance ⟨0, 10, 0, false, false⟩ R rs).1.getD i (0, false)).2 = true →
      ((runAdvance ⟨0, 10, 0, false, false⟩ R rs).1.getD i (0, false)).1 =
        10 * R - sumOfTake rs i ∧
      ((runAdvance ⟨0, 10, 0, false, false⟩ R rs).1.getD i (0, false)).1 ≤
        rs.getD i 0 ∧
      (10 * R < sumOfTake rs (i + 1) →
        ((runAdvance ⟨0, 10, 0, false, false⟩ R rs).1.getD i (0, false)).1 <
          rs.getD i 0)) := by
  have hm := runAdvance_state R hR rs 0 (by omega) i hi
  rw [show ((0 : ℕ) : ℚ) / (R : ℚ) = 0 from by simp] at hm
  simp only [Nat.zero_add] at hm
  refine ⟨hm.1, fun h => ?_⟩
  have hps := sumOfTake_succ rs i hi
  have hflag := hm.1.mp h
  have hprod := hm.2 h
  refine ⟨hprod, ?_, ?_⟩
  · rw [hprod]
    omega
  · intro hstrict
    rw [hprod]
    omega

/-- Witness for C4: at rate 1 with requests `[4, 7]`, the second call
crosses the 10-frame boundary: it reports completion and produces only
6 of the 7 requested frames. -/
theorem playbackSchedule_completes_once_witness :
    ((runAdvance ⟨0, 10, 0, false, false⟩ 1 [4, 7]).1.getD 1 (0, false)).2 = true ∧
    ((runAdvance ⟨0, 10, 0, false, false⟩ 1 [4, 7]).1.getD 1 (0, false)).1 = 6 := by
  have h := playbackSchedule_completes_once 1 (by decide) [4, 7] 1 (by decide)
  have hflag : ((runAdvance ⟨0, 10, 0, false, false⟩ 1 [4, 7]).1.getD 1
      (0, false)).2 = true :=
    h.1.mpr ⟨by decide, by decide⟩
  refine ⟨hflag, ?_⟩
  rw [(h.2 hflag).1]
  decide

/-! ## Theorems: rate negotiation -/

theorem mem_rateCandidates (requested : Nat) (cr pr : List Nat) (x : Nat) :
    x ∈ rateCandidates true true requested cr pr ↔
      x ∈ cr ∧ x ∈ pr ∧ (x ∈ standardRates ∨ x = requested) := by
  simp [rateCandidates, supportedCommonRates, List.mem_filter, and_assoc]
  tauto

theorem le_foldr_max (l : List Nat) : ∀ x ∈ l, x ≤ l.foldr max 0 := by
  induction l with
  | nil => intro x hx; exact absurd hx (by simp)
  | cons y l ih =>
      intro x hx
      rcases List.mem_cons.mp hx with h | h
      · rw [h, List.foldr_cons]
        exact le_max_left _ _
      · rw [List.foldr_cons]
        exact le_trans (ih x h) (le_max_right _ _)

theorem foldr_max_zero_or_mem (l : List Nat) :
    l.foldr max 0 = 0 ∨ l.foldr max 0 ∈ l := by
  induction l with
  | nil => left; rfl
  | cons y l ih =>
      rcases le_total (l.foldr max 0) y with h | h
      · right
        rw [List.foldr_cons, max_eq_left h]
        exact List.mem_cons_self _ _
      · rcases ih with h0 | hm
        · right
          rw [List.foldr_cons, h0, max_eq_left (Nat.zero_le y)]
          exact List.mem_cons_self _ _
        · right
          rw [List.foldr_cons, max_eq_right h]
          exact List.mem_cons_of_mem _ hm

/-- C1: `GetBestRate` returns a rate supported by both the capture and
the playback device and drawn from the standard rates (or the requested
rate itself); it follows the preference order requested rate, then
48000, then 44100, then the highest candidate; it returns 0 when the
candidate intersection is empty; and on playback rates
`[44100, 48000]`, capture rates `[48000, 96000]` and requested rate
44100 it returns 48000. -/
theorem getBestRate_spec :
    (∀ (requested : Nat) (cr pr : List Nat),
      (GetBestRate true true requested cr pr ≠ 0 →
        GetBestRate true true requested cr pr ∈ cr ∧
        GetBestRate true true requested cr pr ∈ pr ∧
        (GetBestRate true true requested cr pr ∈ standardRates ∨
          GetBestRate true true requested cr pr = requested)) ∧
      (requested ∈ rateCandidates true true requested cr pr →
        GetBestRate true true requested cr pr = requested) ∧
      (requested ∉ rateCandidates true true requested cr pr →
        48000 ∈ rateCandidates true true requested cr pr →
        GetBestRate true true requested cr pr = 48000) ∧
      (requested ∉ rateCandidates true true requested cr pr →
        48000 ∉ rateCandidates true true requested cr pr →
        44100 ∈ rateCandidates true true requested cr pr →
        GetBestRate true true requested cr pr = 44100) ∧
      (requested ∉ rateCandidates true true requested cr pr →
        48000 ∉ rateCandidates true true requested cr pr →
        44100 ∉ rateCandidates true true requested cr pr →
        ∀ x ∈ rateCandidates true true requested cr pr,
          x ≤ GetBestRate true true requested cr pr) ∧
      (rateCandidates true true requested cr pr = [] →
        GetBestRate true true requested cr pr = 0)) ∧
    GetBestRate true true 44100 [48000, 96000] [44100, 48000] = 48000 := by
  constructor
  · intro requested cr pr
    refine ⟨?_, ?_, ?_, ?_, ?_, ?_⟩
    · intro hne
      by_cases h1 : requested ∈ rateCandidates true true requested cr pr
      · rw [show GetBestRate true true requested cr pr = requested from by
          unfold GetBestRate; rw [if_pos h1]]
        exact (mem_rateCandidates requested cr pr requested).mp h1
      · by_cases h2 : 48000 ∈ rateCandidates true true requested cr pr
        · rw [show GetBestRate true true requested cr pr = 48000 from by
            unfold GetBestRate; rw [if_neg h1, if_pos h2]]
          exact (mem_rateCandidates requested cr pr 48000).mp h2
        · by_cases h3 : 44100 ∈ rateCandidates true true requested cr pr
          · rw [show GetBestRate true true requested cr pr = 44100 from by
              unfold GetBestRate; rw [if_neg h1, if_neg h2, if_pos h3]]
            exact (mem_rateCandidates requested cr pr 44100).mp h3
          · have hfold : GetBestRate true true requested cr pr =
                (rateCandidates true true requested cr pr).foldr max 0 := by
              unfold GetBestRate; rw [if_neg h1, if_neg h2, if_neg h3]
            rcases foldr_max_zero_or_mem
                (rateCandidates true true requested cr pr) with h0 | hm
            · exact absurd (hfold.trans h0) hne
            · rw [hfold]
              exact (mem_rateCandidates requested cr pr _).mp hm
    · intro h1
      unfold GetBestRate; rw [if_pos h1]
    · intro h1 h2
      unfold GetBestRate; rw [if_neg h1, if_pos h2]
    · intro h1 h2 h3
      unfold GetBestRate; rw [if_neg h1, if_neg h2, if_pos h3]
    · intro h1 h2 h3 x hx
      rw [show GetBestRate true true requested cr pr =
          (rateCandidates true true requested cr pr).foldr max 0 from by
        unfold GetBestRate; rw [if_neg h1, if_neg h2, if_neg h3]]
      exact le_foldr_max _ x hx
    · intro hempty
      unfold GetBestRate
      rw [hempty]
      rfl
  · decide

/-- Witness for C1: with capture rates `[7]` and playback rates `[9]`
the candidate intersection is empty, so the negotiated rate is 0. -/
theorem getBestRate_spec_witness : GetBestRate true true 100 [7] [9] = 0 :=
  (getBestRate_spec.1 100 [7] [9]).2.2.2.2.2 (by decide)

/-! ## Theorems: StartStream rollback -/

/-- C6: when `StartStream` fails — unsupported rate, allocation
failure, or unavailable device — it reports a nonempty diagnostic and
the engine state after the call is exactly the quiescent state from
before the call: every partial allocation has been rolled back.
Conversely, each of those failure conditions does produce a failure
result. -/
theorem startStream_failure_rollback (env : StartStreamEnv) (st : EngineState)
    (hq : quiescent st) :
    (∀ msg, (StartStream env st).2 = Except.error msg →
      (StartStream env st).1 = st ∧ msg ≠ "") ∧
    ((env.bestRate = 0 ∨ env.allocationOk = false ∨ env.deviceAvailable = false) →
      ∃ msg, (StartStream env st).2 = Except.error msg) := by
  obtain ⟨ntok, tok, rb, mx, ps, thr⟩ := st
  obtain ⟨hrb, hmx, hps, hthr, htok⟩ := hq
  simp only at hrb hmx hps hthr htok
  subst hrb hmx hps hthr htok
  obtain ⟨br, alloc, dev⟩ := env
  by_cases h1 : br = 0
  · subst h1
    refine ⟨fun msg hmsg => ?_, fun _ => ⟨_, rfl⟩⟩
    constructor
    · rfl
    · have : msg = "The requested sample rate is not supported by the devices" := by
        have := hmsg
        simp [StartStream] at this
        exact this.symm
      rw [this]
      decide
  · cases alloc with
    | false =>
        refine ⟨fun msg hmsg => ?_,
          fun _ => ⟨"Out of memory: could not allocate audio buffers",
            by simp [StartStream, h1]⟩⟩
        constructor
        · simp [StartStream, StartStreamCleanup, h1]
        · have hm2 : msg = "Out of memory: could not allocate audio buffers" := by
            have h := hmsg
            simp [StartStream, h1] at h
            exact h.symm
          rw [hm2]
          decide
    | true =>
        cases dev with
        | false =>
            refine ⟨fun msg hmsg => ?_,
              fun _ => ⟨"Error opening sound device",
                by simp [StartStream, h1]⟩⟩
            constructor
            · simp [StartStream, StartStreamCleanup, h1]
            · have hm2 : msg = "Error opening sound device" := by
                have h := hmsg
                simp [StartStream, h1] at h
                exact h.symm
              rw [hm2]
              decide
        | true =>
            refine ⟨fun msg hmsg => ?_, fun hcontra => ?_⟩
            · exfalso
              have h := hmsg
              simp [StartStream, h1] at h
            · rcases hcontra with h | h | h
              · exact absurd h h1
              · exact absurd h (by simp)
              · exact absurd h (by simp)

/-- Witness for C6: a rate-negotiation failure (best rate 0) on a
quiescent engine with next token 5 leaves the state unchanged. -/
theorem startStream_failure_rollback_witness :
    (StartStream ⟨0, true, true⟩ ⟨5, 0, false, false, false, false⟩).1 =
      ⟨5, 0, false, false, false, false⟩ := by
  have h := startStream_failure_rollback ⟨0, true, true⟩
    ⟨5, 0, false, false, false, false⟩ ⟨rfl, rfl, rfl, rfl, rfl⟩
  exact (h.1 _ rfl).1

/-! ## Theorems: device catalog -/

/-- C7 counterexample: on a catalog that has never been scanned
(`m_inited = false`, both lists empty) and a PortAudio environment with
one full-duplex device, calling `GetInputDevices` triggers the lazy
initial `Rescan` and the stored input list changes — the query is not
read-only on the very first call. -/
theorem getInputDevices_not_readonly_counterexample :
    (GetInputDevices ⟨[⟨"dev", 0, 2, 2, 44100⟩], fun _ => "host"⟩
        ⟨false, [], []⟩).1.mInputDeviceSources ≠
      (⟨false, [], []⟩ : DeviceManager).mInputDeviceSources := by
  decide

/-- C7 amended: once the catalog has been initialized (`m_inited`,
which holds after any `Rescan`, in particular after the lazy initial
scan), `GetInputDevices` and `GetOutputDevices` are pure queries: they
leave the manager state — in particular both stored device lists —
unchanged and perform no rescan. -/
theorem deviceQueries_readonly_when_inited (env : PaEnv) (dm : DeviceManager)
    (h : dm.m_inited = true) :
    GetInputDevices env dm = (dm, dm.mInputDeviceSources) ∧
    GetOutputDevices env dm = (dm, dm.mOutputDeviceSources) := by
  unfold GetInputDevices GetOutputDevices
  rw [if_pos h]
  exact ⟨rfl, rfl⟩

/-- Witness for the amended C7 at a concrete initialized catalog. -/
theorem deviceQueries_readonly_witness :
    GetInputDevices ⟨[], fun _ => ""⟩ ⟨true, [], []⟩ =
      ((⟨true, [], []⟩ : DeviceManager), []) :=
  (deviceQueries_readonly_when_inited ⟨[], fun _ => ""⟩ ⟨true, [], []⟩ rfl).1

/-- C8: evaluation at the failing input.  The environment reports one
output-only device (`maxOutputChannels = 2`, `maxInputChannels = 0`).
After `Rescan` the output list holds a descriptor whose type is
`Input` and whose channel count is 0 (the device's maximum INPUT
channel count), because `AddSources` passes the literal `true` to
`FillHostDeviceInfo` instead of its own `isInput` argument; the spec
required type `Output` and channel count 2. -/
theorem rescan_output_descriptor_bug :
    (Rescan ⟨[⟨"speakers", 3, 0, 2, 44100⟩], fun _ => "alsa"⟩
        ⟨false, [], []⟩).mOutputDeviceSources =
      [⟨0, 3, "speakers", "alsa", 0, DeviceType.Input⟩] ∧
    (Rescan ⟨[⟨"speakers", 3, 0, 2, 44100⟩], fun _ => "alsa"⟩
        ⟨false, [], []⟩).mOutputDeviceSources.map Device.deviceType ≠
      [DeviceType.Output] ∧
    (Rescan ⟨[⟨"speakers", 3, 0, 2, 44100⟩], fun _ => "alsa"⟩
        ⟨false, [], []⟩).mOutputDeviceSources.map Device.numChannels ≠ [2] := by
  refine ⟨by decide, by decide, by decide⟩

/-! ## Theorems: latency preference commit -/

theorem ratTrunc_lt_32 (x : ℚ) : ratTrunc x < 32 ↔ x < 32 := by
  unfold ratTrunc
  by_cases h : 0 ≤ x
  · rw [if_pos h, Int.floor_lt]
    norm_num
  · rw [if_neg h]
    push_neg at h
    constructor
    · intro _
      linarith
    · intro _
      have hceil : ⌈x⌉ ≤ 0 := Int.ceil_le.mpr (by push_cast; linarith)
      omega

/-- C10: the committed latency-duration preference always denotes at
least 32 samples.  If the stored value (converted from milliseconds to
samples by the default-rate factor when the unit is milliseconds) is
below 32 samples, `Commit` replaces it by exactly 32 samples (converted
back to milliseconds when that is the unit); otherwise it leaves the
stored preference unchanged. -/
theorem devicePrefs_latency_min32 (stored : ℚ) (isMs : Bool) (msFactor : ℚ)
    (hf : 0 < msFactor) :
    32 ≤ latencyInSamples (commitLatencyDuration stored isMs msFactor) isMs msFactor ∧
    (latencyInSamples stored isMs msFactor < 32 →
      latencyInSamples (commitLatencyDuration stored isMs msFactor) isMs msFactor = 32) ∧
    (32 ≤ latencyInSamples stored isMs msFactor →
      commitLatencyDuration stored isMs msFactor = stored) := by
  have hL : latencyInSamples (if isMs then (32 : ℚ) / msFactor else 32)
      isMs msFactor = 32 := by
    cases isMs
    · rfl
    · show (32 : ℚ) / msFactor * msFactor = 32
      exact div_mul_cancel₀ 32 (ne_of_gt hf)
  have hC : commitLatencyDuration stored isMs msFactor =
      if ratTrunc (latencyInSamples stored isMs msFactor) < 32
      then (if isMs then (32 : ℚ) / msFactor else 32) else stored := rfl
  rw [hC]
  by_cases h : ratTrunc (latencyInSamples stored isMs msFactor) < 32
  · rw [if_pos h]
    have hlt := (ratTrunc_lt_32 _).mp h
    exact ⟨le_of_eq hL.symm, fun _ => hL, fun hge => absurd hge (not_le.mpr hlt)⟩
  · rw [if_neg h]
    have hge : 32 ≤ latencyInSamples stored isMs msFactor :=
      le_of_not_lt (fun hlt => h ((ratTrunc_lt_32 _).mpr hlt))
    exact ⟨hge, fun hlt => absurd hlt (not_lt.mpr hge), fun _ => rfl⟩

/-- Witness for C10: half a millisecond at a 44100 Hz default rate is
22.05 samples, below the minimum, so the committed value denotes
exactly 32 samples. -/
theorem devicePrefs_latency_min32_witness :
    latencyInSamples (commitLatencyDuration (1 / 2) true (441 / 10)) true
      (441 / 10) = 32 := by
  have h := devicePrefs_latency_min32 (1 / 2) true (441 / 10) (by norm_num)
  exact h.2.1 (by norm_num [latencyInSamples])

end TenacityAudio
